import Mathlib

/-!
Verification of the PortaDJ per-deck playback engine (`src/hooks/useAudioDeck.ts`).

The development shallow-embeds the deck's data model and operations over `ℚ`
(the source manipulates JS numbers; all the properties below are about exact
arithmetic relations between them).  Pure helpers (scratch-engine physics,
cue-point list manipulation, the BPM autocorrelation core) are translated as
Lean functions; the stateful hook is translated as a record of deck state with
one function per operation, and a step relation closed under all public
operations together with audio-clock advancement.
-/

namespace PortaDJ

/-! ### Scratch engine (`startScratch`, lines 369-407)

`physStep` is the per-frame damped-tracking update
`currentSample += (targetSample - currentSample) * 0.5`.
`renderFrame` is the body of the `onaudioprocess` loop for a single output
frame: physics update, boundary check, linear interpolation.  Channels are
modelled as total functions `ℕ → ℚ`; `maxSample` is `buffer.length - 1`. -/

def physStep (cur target : ℚ) : ℚ :=
  cur + (target - cur) * (1 / 2)

structure FrameOut where
  newSample : ℚ
  outL : ℚ
  outR : ℚ
  deriving DecidableEq

def renderFrame (chanL chanR : ℕ → ℚ) (maxSample : ℕ) (cur target : ℚ) : FrameOut :=
  if physStep cur target < 0 ∨ (maxSample : ℚ) < physStep cur target then
    ⟨physStep cur target, 0, 0⟩
  else
    ⟨physStep cur target,
     chanL (⌊physStep cur target⌋).toNat *
         (1 - (physStep cur target - (⌊physStep cur target⌋ : ℚ))) +
       chanL (min ((⌊physStep cur target⌋).toNat + 1) maxSample) *
         (physStep cur target - (⌊physStep cur target⌋ : ℚ)),
     chanR (⌊physStep cur target⌋).toNat *
         (1 - (physStep cur target - (⌊physStep cur target⌋ : ℚ))) +
       chanR (min ((⌊physStep cur target⌋).toNat + 1) maxSample) *
         (physStep cur target - (⌊physStep cur target⌋ : ℚ))⟩

/-! ### Cue-point manager (lines 470-490) -/

/-- Source test `cuePoints.some(c => Math.abs(c - currentTime) < 0.1)` (line 471). -/
def nearCue (cps : List ℚ) (t : ℚ) : Bool :=
  cps.any fun c => decide (|c - t| < 1 / 10)

/-- Sorted insertion, the building block of ascending `Array.sort`. -/
def insertSorted (t : ℚ) : List ℚ → List ℚ
  | [] => [t]
  | c :: cs => if t ≤ c then t :: c :: cs else c :: insertSorted t cs

/-- Source sort `[...arr].sort((a, b) => a - b)`: ascending sort of a rational list
(insertion sort; on `ℚ` every correct sort computes the same list). -/
def sortAsc (l : List ℚ) : List ℚ :=
  l.foldr insertSorted []

/-- Source `addCuePoint` (lines 470-475): no-op if an entry lies within 0.1s of the
current time, otherwise append the current time and re-sort ascending. -/
def addCuePoint (cps : List ℚ) (t : ℚ) : List ℚ :=
  if nearCue cps t then cps else sortAsc (cps ++ [t])

/-- Source `removeCuePoint` (lines 477-479): drop every entry within 0.1s. -/
def removeCuePoint (cps : List ℚ) (t : ℚ) : List ℚ :=
  cps.filter fun c => decide (1 / 10 ≤ |c - t|)

/-- Seek target of `jumpToNextCue` (lines 481-486): first stored cue strictly
beyond `currentTime + 0.05`, else the first stored cue, else 0. -/
def jumpTarget (cps : List ℚ) (t : ℚ) : ℚ :=
  match cps with
  | [] => 0
  | c :: rest => ((c :: rest).find? fun x => decide (t + 1 / 20 < x)).getD c

/-! ### BPM estimator, autocorrelation core (`analyzeBPM`, lines 96-152)

The pipeline up to envelope extraction (segment selection and biquad
filtering) runs through `OfflineAudioContext`; the part the claims are about
is the pure autocorrelation search and normalization, which takes the
rectified downsampled envelope and the effective sample rate. -/

/-- JS `Math.round`: round half toward positive infinity. -/
def jsRound (q : ℚ) : ℤ :=
  ⌊q + 1 / 2⌋

/-- Source rounding `Math.round(x * 10) / 10` (line 146): one decimal place. -/
def round1 (q : ℚ) : ℚ :=
  (jsRound (q * 10) : ℚ) / 10

/-- Correlation sum for one lag (lines 125-132): `Σ env[i] * env[i+lag]` with
the loop bound `limit = min(length - lag, length)`. -/
def corrAt (env : List ℚ) (lag : ℕ) : ℚ :=
  ∑ i ∈ Finset.range (env.length - lag), env.getD i 0 * env.getD (i + lag) 0

/-- The searched lags `minLag..maxLag` (lines 117-118, 124):
`minLag = floor(effectiveRate * 60/160)`, `maxLag = floor(effectiveRate * 60/70)`. -/
def lagRange (r : ℚ) : List ℕ :=
  (List.range ((⌊r * ((60 : ℚ) / 70)⌋).toNat + 1 - (⌊r * ((60 : ℚ) / 160)⌋).toNat)).map
    fun k => k + (⌊r * ((60 : ℚ) / 160)⌋).toNat

/-- The `for (lag = minLag; lag <= maxLag; lag++)` loop (lines 124-138),
tracking `(maxCorrelation, bestLag)` with a strict-greater update. -/
def bestLoop (f : ℕ → ℚ) : List ℕ → ℚ → ℕ → ℚ × ℕ
  | [], mc, bl => (mc, bl)
  | l :: ls, mc, bl => if mc < f l then bestLoop f ls (f l) l else bestLoop f ls mc bl

/-- Source loop `while (calculatedBpm < 70) calculatedBpm *= 2` (line 149).  The source
loop diverges on non-positive input, which it never receives (it runs only
when `bestLag != 0`); the positivity test makes the translation total without
changing its value at any input where the source terminates. -/
def foldDouble (q : ℚ) : ℚ :=
  if h : 0 < q ∧ q < 70 then foldDouble (2 * q) else q
termination_by (⌈(70 : ℚ) / q⌉).toNat
decreasing_by
  have hq : 0 < q := h.1
  have h70 : (1 : ℚ) < 70 / q := (one_lt_div hq).mpr h.2
  have hc2 : (2 : ℤ) ≤ ⌈(70 : ℚ) / q⌉ := by
    have := Int.ceil_lt_add_one (α := ℚ) (70 / q)
    have h1 : (1 : ℤ) < ⌈(70 : ℚ) / q⌉ := by
      exact_mod_cast lt_of_lt_of_le h70 (Int.le_ceil _)
    omega
  have hhalf : (70 : ℚ) / (2 * q) = 70 / q / 2 := by
    rw [div_div, mul_comm]
  have hlt : ⌈(70 : ℚ) / (2 * q)⌉ < ⌈(70 : ℚ) / q⌉ := by
    rw [hhalf]
    have : (70 : ℚ) / q / 2 ≤ (⌈(70 : ℚ) / q⌉ : ℚ) - 1 := by
      have hle : (70 : ℚ) / q ≤ (⌈(70 : ℚ) / q⌉ : ℚ) := Int.le_ceil _
      have : (2 : ℚ) ≤ (⌈(70 : ℚ) / q⌉ : ℚ) := by exact_mod_cast hc2
      linarith
    calc ⌈(70 : ℚ) / q / 2⌉ ≤ ⌈(⌈(70 : ℚ) / q⌉ : ℚ) - 1⌉ := Int.ceil_le_ceil this
      _ = ⌈(70 : ℚ) / q⌉ - 1 := by
          rw [show ((⌈(70 : ℚ) / q⌉ : ℚ) - 1) = ((⌈(70 : ℚ) / q⌉ - 1 : ℤ) : ℚ) by push_cast; ring,
            Int.ceil_intCast]
      _ < ⌈(70 : ℚ) / q⌉ := by omega
  omega

/-- Source loop `while (calculatedBpm > 160) calculatedBpm /= 2` (line 150). -/
def foldHalve (q : ℚ) : ℚ :=
  if h : 160 < q then foldHalve (q / 2) else q
termination_by (⌈q⌉).toNat
decreasing_by
  have hc : (161 : ℤ) ≤ ⌈q⌉ := by
    have h1 : (160 : ℚ) < (⌈q⌉ : ℚ) := lt_of_lt_of_le h (Int.le_ceil _)
    exact_mod_cast h1
  have hlt : ⌈q / 2⌉ < ⌈q⌉ := by
    have : q / 2 ≤ (⌈q⌉ : ℚ) - 1 := by
      have hle : q ≤ (⌈q⌉ : ℚ) := Int.le_ceil _
      linarith
    calc ⌈q / 2⌉ ≤ ⌈(⌈q⌉ : ℚ) - 1⌉ := Int.ceil_le_ceil this
      _ = ⌈q⌉ - 1 := by
          rw [show ((⌈q⌉ : ℚ) - 1) = ((⌈q⌉ - 1 : ℤ) : ℚ) by push_cast; ring, Int.ceil_intCast]
      _ < ⌈q⌉ := by omega
  omega

/-- Lines 148-152: fold into [70, 160] then round to an integer. -/
def normalizeBpm (q : ℚ) : ℤ :=
  jsRound (foldHalve (foldDouble q))

/-- Lines 120-152 of `analyzeBPM`: the autocorrelation search over the
envelope, returning the final integer BPM (0 when no lag was selected). -/
def analyzeCore (env : List ℚ) (r : ℚ) : ℤ :=
  if (bestLoop (corrAt env) (lagRange r) 0 0).2 = 0 then 0
  else normalizeBpm (round1 (60 * r / (((bestLoop (corrAt env) (lagRange r) 0 0).2 : ℕ) : ℚ)))

/-- Full `analyzeBPM` with the short-track guard (lines 41-44): tracks shorter
than 10 seconds return 0 without analysis. -/
def analyzeBPM_model (dur : ℚ) (env : List ℚ) (r : ℚ) : ℤ :=
  if dur < 10 then 0 else analyzeCore env r

/-! #### Reference definition of the estimator (the claim's words)

`refBestLag` picks "the lag in the range maximizing the correlation sum,
first such lag on ties" declaratively: the first lag whose correlation is
greater than or equal to every other lag's.  `bpmReference` then applies the
claim's zero rule ("if no lag has positive correlation the result is 0") and
otherwise the same conversion/normalization formulas. -/

def refBestLag (env : List ℚ) (r : ℚ) : Option ℕ :=
  (lagRange r).find? fun l => (lagRange r).all fun m => decide (corrAt env m ≤ corrAt env l)

def bpmReference (env : List ℚ) (r : ℚ) : ℤ :=
  match refBestLag env r with
  | none => 0
  | some b => if corrAt env b ≤ 0 then 0 else normalizeBpm (round1 (60 * r / (b : ℚ)))

def bpmReferenceTrack (dur : ℚ) (env : List ℚ) (r : ℚ) : ℤ :=
  if dur < 10 then 0 else bpmReference env r

/-! ### Deck state machine (`useAudioDeck`, lines 160-562)

One record collects the React state (`isPlaying`, `currentTime`, `duration`,
`cuePoints`, `fileName`, `bpm`, `playbackRate`), the ref cell
(`startTime`, `pausedAt`), the scratch state (`isScratching`,
`wasPlayingBeforeScratch`, `currentSample`, `targetSample`), the loaded
buffer's metadata (`loaded`, `dur`, `srate`) and the audio clock `now`
(`audioContext.currentTime`).  Each public operation becomes a function
`Deck → Deck`, faithful to the body and guard structure of its source. -/

structure Deck where
  loaded : Bool
  dur : ℚ
  srate : ℚ
  isPlaying : Bool
  isScratching : Bool
  wasPlaying : Bool
  pausedAt : ℚ
  startTime : ℚ
  rate : ℚ
  currentTime : ℚ
  cuePoints : List ℚ
  curSample : ℚ
  targetSample : ℚ
  fileName : Option String
  bpm : ℤ
  now : ℚ
  deriving DecidableEq

/-- The audio clock advancing between operations. -/
def advanceOp (s : Deck) (d : ℚ) : Deck :=
  { s with now := s.now + d }

/-- Source `handlePause` (lines 329-341). -/
def pauseOp (s : Deck) : Deck :=
  if s.isPlaying = true then
    { s with
      pausedAt := min (s.pausedAt + (s.now - s.startTime) * s.rate) s.dur,
      currentTime := min (s.pausedAt + (s.now - s.startTime) * s.rate) s.dur,
      isPlaying := false }
  else s

/-- Source `handlePlay` (lines 301-327). -/
def playOp (s : Deck) : Deck :=
  if s.loaded = true ∧ s.isPlaying = false ∧ s.isScratching = false then
    if s.dur ≤ s.pausedAt then
      { s with pausedAt := 0, currentTime := 0, startTime := s.now, isPlaying := true }
    else
      { s with currentTime := s.pausedAt, startTime := s.now, isPlaying := true }
  else s

/-- One pass of the UI update loop (`update`, lines 230-254): in scratch mode
the display follows `currentSample` (clamped) and `pausedAt` is kept synced
(unclamped, line 237); in normal playback the position is extrapolated and
auto-stop fires at the end of the track. -/
def tickOp (s : Deck) : Deck :=
  if s.isScratching = true then
    if s.loaded = true then
      { s with
        currentTime := max 0 (min (s.curSample / s.srate) s.dur),
        pausedAt := s.curSample / s.srate }
    else s
  else if s.isPlaying = true then
    if s.dur ≤ s.pausedAt + (s.now - s.startTime) * s.rate ∧ 0 < s.dur then
      { pauseOp s with currentTime := 0, pausedAt := 0 }
    else
      { s with currentTime := s.pausedAt + (s.now - s.startTime) * s.rate }
  else s

/-- Source `seek` (lines 436-466).  While scratching only the target moves; otherwise
the clamped time is committed and, if playing, the source restarts there. -/
def seekOp (s : Deck) (t : ℚ) : Deck :=
  if s.loaded = true then
    if s.isScratching = true then
      { s with targetSample := max 0 (min t s.dur) * s.srate }
    else if s.isPlaying = true then
      { s with
        currentTime := max 0 (min t s.dur),
        pausedAt := max 0 (min t s.dur),
        startTime := s.now }
    else
      { s with currentTime := max 0 (min t s.dur), pausedAt := max 0 (min t s.dur) }
  else s

/-- Source `startScratch` (lines 345-411, state part). -/
def startScratchOp (s : Deck) : Deck :=
  if s.loaded = true then
    { s with
      wasPlaying := s.isPlaying,
      isScratching := true,
      isPlaying := false,
      curSample := s.pausedAt * s.srate,
      targetSample := s.pausedAt * s.srate }
  else s

/-- One frame of the scratch render callback (active only while the processor
exists, i.e. while scratching): the damped-tracking physics update. -/
def scratchFrameOp (s : Deck) : Deck :=
  if s.isScratching = true then
    { s with curSample := physStep s.curSample s.targetSample }
  else s

/-- Position reconciliation inside `stopScratch` (lines 421-427). -/
def syncStop (s : Deck) : Deck :=
  if s.loaded = true then
    { s with
      isScratching := false,
      pausedAt := s.curSample / s.srate,
      currentTime := s.curSample / s.srate }
  else { s with isScratching := false }

/-- Source `stopScratch` (lines 413-434). -/
def stopScratchOp (s : Deck) : Deck :=
  if s.isScratching = true then
    if s.wasPlaying = true then playOp (syncStop s) else syncStop s
  else s

/-- Source `addCuePoint` bound to the deck (lines 470-475). -/
def addCueOp (s : Deck) : Deck :=
  { s with cuePoints := addCuePoint s.cuePoints s.currentTime }

/-- Source `removeCuePoint` bound to the deck (lines 477-479). -/
def removeCueOp (s : Deck) : Deck :=
  { s with cuePoints := removeCuePoint s.cuePoints s.currentTime }

/-- Source `jumpToNextCue` (lines 481-490): compute the target from the current
state, stop an active scratch, then seek. -/
def jumpOp (s : Deck) : Deck :=
  seekOp (if s.isScratching = true then stopScratchOp s else s)
    (jumpTarget s.cuePoints s.currentTime)

/-- Source `setPlaybackRate` (lines 505-507): only the rate state changes; the rate
parameter of the live source node is updated by the effect at lines 261-265,
and `pausedAt`/`startTime` are left untouched. -/
def setRateOp (s : Deck) (v : ℚ) : Deck :=
  { s with rate := v }

/-- Source `loadFile`, successful decode (lines 267-293): the pre-decode teardown
(new file name, stop playback and scratch) followed by the post-decode reset. -/
def loadSuccessOp (s : Deck) (d sr : ℚ) (name : String) : Deck :=
  { s with
    fileName := some name,
    isPlaying := false,
    isScratching := false,
    loaded := true,
    dur := d,
    srate := sr,
    pausedAt := 0,
    currentTime := 0,
    rate := 1,
    cuePoints := [],
    bpm := 0 }

/-- Source `loadFile`, failed decode (lines 267-277 and 295-298): the pre-decode
teardown ran, the `catch` only reports the error. -/
def loadFailOp (s : Deck) (name : String) : Deck :=
  { s with fileName := some name, isPlaying := false, isScratching := false }

/-- One step of the deck: the audio clock may advance, or any public operation
runs at the current clock.  Rate changes carry the spec's data-model
constraint `playbackRate > 0`; decoded buffers have positive duration and
sample rate. -/
inductive Step : Deck → Deck → Prop
  | advance (s : Deck) (d : ℚ) (h : 0 ≤ d) : Step s (advanceOp s d)
  | tick (s : Deck) : Step s (tickOp s)
  | play (s : Deck) : Step s (playOp s)
  | pause (s : Deck) : Step s (pauseOp s)
  | seek (s : Deck) (t : ℚ) : Step s (seekOp s t)
  | startScr (s : Deck) : Step s (startScratchOp s)
  | frame (s : Deck) : Step s (scratchFrameOp s)
  | stopScr (s : Deck) : Step s (stopScratchOp s)
  | addCue (s : Deck) : Step s (addCueOp s)
  | removeCue (s : Deck) : Step s (removeCueOp s)
  | jump (s : Deck) : Step s (jumpOp s)
  | setRate (s : Deck) (v : ℚ) (h : 0 < v) : Step s (setRateOp s v)
  | loadOk (s : Deck) (d sr : ℚ) (name : String) (hd : 0 < d) (hsr : 0 < sr) :
      Step s (loadSuccessOp s d sr name)
  | loadErr (s : Deck) (name : String) : Step s (loadFailOp s name)

/-- A deck immediately after its first successful load: duration `d`, sample
rate `sr`, clock at `n0`. -/
def initDeck (d sr n0 : ℚ) : Deck :=
  { loaded := true, dur := d, srate := sr, isPlaying := false, isScratching := false,
    wasPlaying := false, pausedAt := 0, startTime := 0, rate := 1, currentTime := 0,
    cuePoints := [], curSample := 0, targetSample := 0, fileName := none, bpm := 0,
    now := n0 }

def Reachable (s s' : Deck) : Prop :=
  Relation.ReflTransGen Step s s'

/-- The inductive invariant carrying claim C4. -/
structure DeckInv (s : Deck) : Prop where
  loaded : s.loaded = true
  durPos : 0 < s.dur
  srPos : 0 < s.srate
  ratePos : 0 < s.rate
  ct0 : 0 ≤ s.currentTime
  ctD : s.currentTime ≤ s.dur
  pa0 : 0 ≤ s.pausedAt
  paD : s.pausedAt ≤ s.dur
  clock : s.startTime ≤ s.now
  scr : s.isScratching = true →
    0 ≤ s.curSample ∧ s.curSample ≤ s.dur * s.srate ∧
    0 ≤ s.targetSample ∧ s.targetSample ≤ s.dur * s.srate

/-- Cue lists reachable through the cue manager's own operations, starting
from the empty list a fresh load installs (line 286). -/
inductive CueReach : List ℚ → Prop
  | init : CueReach []
  | add (cps : List ℚ) (t : ℚ) (h : CueReach cps) : CueReach (addCuePoint cps t)
  | remove (cps : List ℚ) (t : ℚ) (h : CueReach cps) : CueReach (removeCuePoint cps t)

/-! ### Load / analysis-completion system (claim C3)

`loadFile` starts `analyzeBPM(decodedBuffer).then(detected => setBpm(...))`
(lines 291-293) with no staleness marker: the completion applies
unconditionally.  States tag each load with a generation number; `bpmTag`
records which generation's analysis produced the currently displayed bpm
(`none` after the reset at line 289). -/

structure BpmSys where
  gen : ℕ
  bpmTag : Option ℕ
  pending : List ℕ
  deriving DecidableEq

/-- A new `loadFile`: new generation, bpm reset to 0, analysis of the new
buffer started. -/
def loadStep (s : BpmSys) : BpmSys :=
  ⟨s.gen + 1, none, (s.gen + 1) :: s.pending⟩

/-- A pending analysis completes: the `.then` handler applies its result
unconditionally (line 292). -/
def completeStep (s : BpmSys) (g : ℕ) : BpmSys :=
  ⟨s.gen, some g, s.pending.erase g⟩

inductive BStep : BpmSys → BpmSys → Prop
  | load (s : BpmSys) : BStep s (loadStep s)
  | complete (s : BpmSys) (g : ℕ) (h : g ∈ s.pending) : BStep s (completeStep s g)

def initBpm : BpmSys :=
  ⟨0, none, []⟩

def BpmReachable (s : BpmSys) : Prop :=
  Relation.ReflTransGen BStep initBpm s

/-- A deck 10 seconds into normal playback of a 100s track at rate 1
(reachable from `initDeck 100 44100 0` by `play` then a 10s clock advance). -/
def c1Deck : Deck :=
  { loaded := true, dur := 100, srate := 44100, isPlaying := true, isScratching := false,
    wasPlaying := false, pausedAt := 0, startTime := 0, rate := 1, currentTime := 0,
    cuePoints := [], curSample := 0, targetSample := 0, fileName := none, bpm := 0,
    now := 10 }

/-- A playing deck with a previously loaded track named "track-a". -/
def c2Deck : Deck :=
  { loaded := true, dur := 100, srate := 44100, isPlaying := true, isScratching := false,
    wasPlaying := false, pausedAt := 5, startTime := 0, rate := 1, currentTime := 5,
    cuePoints := [3], curSample := 0, targetSample := 0, fileName := some "track-a",
    bpm := 120, now := 5 }

end PortaDJ

namespace PortaDJ

/-! ## Scratch-engine physics lemmas -/

lemma physStep_eq_midpoint (c t : ℚ) : physStep c t = (c + t) / 2 := by
  unfold physStep; ring

lemma physStep_dist (c t : ℚ) : |t - physStep c t| = |t - c| / 2 := by
  rw [show t - physStep c t = (t - c) / 2 by unfold physStep; ring, abs_div]
  norm_num

lemma physStep_lb (c t : ℚ) : min c t ≤ physStep c t := by
  rcases le_total c t with h | h
  · rw [min_eq_left h, physStep_eq_midpoint]; linarith
  · rw [min_eq_right h, physStep_eq_midpoint]; linarith

lemma physStep_ub (c t : ℚ) : physStep c t ≤ max c t := by
  rcases le_total c t with h | h
  · rw [max_eq_right h, physStep_eq_midpoint]; linarith
  · rw [max_eq_left h, physStep_eq_midpoint]; linarith

/-- Claim C10: each frame of the scratch render procedure moves
`currentSample` to `currentSample + (targetSample - currentSample) * 0.5`,
halving the distance to the target exactly, landing inside the closed
interval between the old position and the target; iterating with the target
held fixed, the distance is `|target - cur| / 2^n` after `n` frames, so the
approach is monotone and never overshoots. -/
theorem scratch_damping_converges :
    (∀ cur target : ℚ,
      physStep cur target = cur + (target - cur) * (1 / 2) ∧
      |target - physStep cur target| = |target - cur| / 2 ∧
      min cur target ≤ physStep cur target ∧ physStep cur target ≤ max cur target) ∧
    ∀ cur target : ℚ, ∀ n : ℕ,
      |target - (fun c => physStep c target)^[n] cur| = |target - cur| / 2 ^ n := by
  constructor
  · intro cur target
    exact ⟨rfl, physStep_dist cur target, physStep_lb cur target, physStep_ub cur target⟩
  · intro cur target n
    induction n with
    | zero => simp
    | succ n ih =>
      rw [Function.iterate_succ_apply', physStep_dist, ih, pow_succ]
      ring

/-- Claim C6: in the scratch render loop, an updated index outside
`[0, bufferLength-1]` produces exact silence on both channels (independently
of the buffer contents, i.e. without reading it), and an in-range index is
interpolated between `floor(idx)` and `min(floor(idx)+1, maxSample)`, both of
which are valid buffer positions. -/
theorem renderFrame_boundary_safe (chanL chanR : ℕ → ℚ) (maxSample : ℕ) (cur target : ℚ) :
    ((physStep cur target < 0 ∨ (maxSample : ℚ) < physStep cur target) →
      (renderFrame chanL chanR maxSample cur target).outL = 0 ∧
      (renderFrame chanL chanR maxSample cur target).outR = 0) ∧
    (0 ≤ physStep cur target → physStep cur target ≤ (maxSample : ℚ) →
      0 ≤ ⌊physStep cur target⌋ ∧
      (⌊physStep cur target⌋).toNat ≤ maxSample ∧
      min ((⌊physStep cur target⌋).toNat + 1) maxSample ≤ maxSample ∧
      (renderFrame chanL chanR maxSample cur target).outL =
        chanL ((⌊physStep cur target⌋).toNat) *
            (1 - (physStep cur target - (⌊physStep cur target⌋ : ℚ))) +
          chanL (min ((⌊physStep cur target⌋).toNat + 1) maxSample) *
            (physStep cur target - (⌊physStep cur target⌋ : ℚ)) ∧
      (renderFrame chanL chanR maxSample cur target).outR =
        chanR ((⌊physStep cur target⌋).toNat) *
            (1 - (physStep cur target - (⌊physStep cur target⌋ : ℚ))) +
          chanR (min ((⌊physStep cur target⌋).toNat + 1) maxSample) *
            (physStep cur target - (⌊physStep cur target⌋ : ℚ))) := by
  constructor
  · intro h
    unfold renderFrame
    rw [if_pos h]
    exact ⟨rfl, rfl⟩
  · intro h0 hmax
    have hnot : ¬(physStep cur target < 0 ∨ (maxSample : ℚ) < physStep cur target) := by
      rintro (h | h) <;> linarith
    have hfl0 : 0 ≤ ⌊physStep cur target⌋ := Int.le_floor.mpr (by exact_mod_cast h0)
    have hflmax : ⌊physStep cur target⌋ ≤ (maxSample : ℤ) := by
      have := Int.floor_le_floor hmax
      rwa [Int.floor_natCast] at this
    have htn : (⌊physStep cur target⌋).toNat ≤ maxSample := by omega
    refine ⟨hfl0, htn, min_le_right _ _, ?_, ?_⟩ <;>
      simp only [renderFrame, if_neg hnot]

/-- Concrete instances of `renderFrame_boundary_safe`: an out-of-range frame
(index -4 with a 10-sample buffer) is silent, and an in-range frame reads only
valid indices. -/
theorem renderFrame_boundary_safe_witness :
    ((physStep (-8) 0 < 0 ∨ ((10 : ℕ) : ℚ) < physStep (-8) 0) ∧
      (renderFrame (fun _ => 1) (fun _ => 1) 10 (-8) 0).outL = 0 ∧
      (renderFrame (fun _ => 1) (fun _ => 1) 10 (-8) 0).outR = 0) ∧
    ((0 : ℚ) ≤ physStep 4 4 ∧ physStep 4 4 ≤ ((10 : ℕ) : ℚ) ∧
      (⌊physStep 4 4⌋).toNat ≤ 10) := by
  have hout : physStep (-8) 0 < 0 ∨ ((10 : ℕ) : ℚ) < physStep (-8) 0 :=
    Or.inl (by norm_num [physStep])
  have h0 : (0 : ℚ) ≤ physStep 4 4 := by norm_num [physStep]
  have h10 : physStep 4 4 ≤ ((10 : ℕ) : ℚ) := by norm_num [physStep]
  exact ⟨⟨hout, (renderFrame_boundary_safe (fun _ => 1) (fun _ => 1) 10 (-8) 0).1 hout⟩,
    h0, h10, ((renderFrame_boundary_safe (fun _ => 1) (fun _ => 1) 10 4 4).2 h0 h10).2.1⟩


/-! ## Cue-point lemmas -/

lemma insertSorted_perm (t : ℚ) (l : List ℚ) : (insertSorted t l).Perm (t :: l) := by
  induction l with
  | nil => exact List.Perm.refl _
  | cons c cs ih =>
    unfold insertSorted
    split_ifs with h
    · exact List.Perm.refl _
    · exact (ih.cons c).trans (List.Perm.swap t c cs)

lemma mem_insertSorted {t x : ℚ} {l : List ℚ} :
    x ∈ insertSorted t l ↔ x = t ∨ x ∈ l := by
  rw [(insertSorted_perm t l).mem_iff, List.mem_cons]

lemma insertSorted_sorted (t : ℚ) {l : List ℚ} (h : l.Sorted (· ≤ ·)) :
    (insertSorted t l).Sorted (· ≤ ·) := by
  induction l with
  | nil => simp [insertSorted]
  | cons c cs ih =>
    rw [List.sorted_cons] at h
    obtain ⟨hc, hs⟩ := h
    unfold insertSorted
    split_ifs with hle
    · rw [List.sorted_cons]
      refine ⟨?_, ?_⟩
      · intro b hb
        rcases List.mem_cons.mp hb with rfl | hb
        · exact hle
        · exact hle.trans (hc b hb)
      · rw [List.sorted_cons]
        exact ⟨hc, hs⟩
    · rw [List.sorted_cons]
      refine ⟨?_, ih hs⟩
      intro b hb
      rcases mem_insertSorted.mp hb with rfl | hb
      · exact (not_le.mp hle).le
      · exact hc b hb

lemma sortAsc_perm (l : List ℚ) : (sortAsc l).Perm l := by
  induction l with
  | nil => exact List.Perm.refl _
  | cons c cs ih => exact (insertSorted_perm c (sortAsc cs)).trans (ih.cons c)

lemma sortAsc_sorted (l : List ℚ) : (sortAsc l).Sorted (· ≤ ·) := by
  induction l with
  | nil => simp [sortAsc]
  | cons c cs ih => exact insertSorted_sorted c ih

lemma nearCue_eq_false_iff {cps : List ℚ} {t : ℚ} :
    nearCue cps t = false ↔ ∀ c ∈ cps, 1 / 10 ≤ |c - t| := by
  simp [nearCue, List.any_eq_false, not_lt]

lemma addCue_of_near {cps : List ℚ} {t : ℚ} (h : nearCue cps t = true) :
    addCuePoint cps t = cps := by
  simp [addCuePoint, h]

lemma addCue_of_far {cps : List ℚ} {t : ℚ} (h : nearCue cps t = false) :
    addCuePoint cps t = sortAsc (cps ++ [t]) := by
  simp [addCuePoint, h]

lemma addCue_perm {cps : List ℚ} {t : ℚ} (h : nearCue cps t = false) :
    (addCuePoint cps t).Perm (t :: cps) := by
  rw [addCue_of_far h]
  exact (sortAsc_perm _).trans List.perm_append_comm

lemma addCue_sorted {cps : List ℚ} {t : ℚ} (h : nearCue cps t = false) :
    (addCuePoint cps t).Sorted (· ≤ ·) := by
  rw [addCue_of_far h]
  exact sortAsc_sorted _

/-- The reachability invariant of the cue list: consecutive entries ascend by
at least 0.1s (hence the list is sorted with no two entries within 0.1s). -/
lemma cueReach_gap {cps : List ℚ} (h : CueReach cps) :
    cps.Pairwise fun a b => a + 1 / 10 ≤ b := by
  induction h with
  | init => simp
  | add cps t _ ih =>
    by_cases hn : nearCue cps t = true
    · rwa [addCue_of_near hn]
    · have hn' : nearCue cps t = false := by
        revert hn; cases nearCue cps t <;> simp
      have hfar := nearCue_eq_false_iff.mp hn'
      have hsym : Symmetric fun a b : ℚ => 1 / 10 ≤ |a - b| := by
        intro a b hab
        rwa [abs_sub_comm]
      have happ : (cps ++ [t]).Pairwise fun a b => 1 / 10 ≤ |a - b| := by
        rw [List.pairwise_append]
        refine ⟨ih.imp ?_, by simp, ?_⟩
        · intro a b hab
          rw [abs_of_nonpos (by linarith)]
          linarith
        · intro a ha b hb
          rw [List.mem_singleton] at hb
          subst hb
          exact hfar a ha
      have hperm : (addCuePoint cps t).Perm (cps ++ [t]) :=
        (addCue_perm hn').trans (@List.perm_append_comm _ [t] cps)
      have habs : (addCuePoint cps t).Pairwise fun a b => 1 / 10 ≤ |a - b| :=
        (hperm.pairwise_iff fun hab => hsym hab).mpr happ
      have hsorted : (addCuePoint cps t).Sorted (· ≤ ·) := addCue_sorted hn'
      refine (hsorted.and habs).imp ?_
      intro a b hab
      obtain ⟨hle, hgap⟩ := hab
      rw [abs_of_nonpos (by linarith)] at hgap
      linarith
  | remove cps t _ ih =>
    exact ih.sublist (List.filter_sublist cps)

/-- Running `find?` on a sorted list returns the least element satisfying the
predicate. -/
lemma find?_sorted_least {p : ℚ → Prop} [DecidablePred p] {cps : List ℚ}
    (hs : cps.Sorted (· ≤ ·)) {c₀ : ℚ}
    (hf : cps.find? (fun x => decide (p x)) = some c₀) :
    c₀ ∈ cps ∧ p c₀ ∧ ∀ c ∈ cps, p c → c₀ ≤ c := by
  induction cps with
  | nil => simp at hf
  | cons c rest ih =>
    rw [List.sorted_cons] at hs
    obtain ⟨hc, hrest⟩ := hs
    by_cases hp : p c
    · rw [List.find?_cons_of_pos _ (by simpa using hp)] at hf
      obtain rfl : c = c₀ := by simpa using hf
      refine ⟨List.mem_cons_self _ _, hp, ?_⟩
      intro x hx _
      rcases List.mem_cons.mp hx with rfl | hx
      · exact le_refl _
      · exact hc x hx
    · rw [List.find?_cons_of_neg _ (by simpa using hp)] at hf
      obtain ⟨h1, h2, h3⟩ := ih hrest hf
      refine ⟨List.mem_cons_of_mem _ h1, h2, ?_⟩
      intro x hx hpx
      rcases List.mem_cons.mp hx with rfl | hx
      · exact absurd hpx hp
      · exact h3 x hx hpx

/-- Claim C8: the `jumpToNextCue` seek target is the smallest stored cue
strictly greater than `currentTime + 0.05` when one exists, else the smallest
stored cue, else 0; in particular with cues `[10, 20, 30]` the target at time
25 is 30 and at time 35 is 10. -/
theorem jumpToNextCue_target_spec :
    (∀ (cps : List ℚ) (t : ℚ), cps.Sorted (· ≤ ·) →
      ((∃ c ∈ cps, t + 1 / 20 < c) →
        IsLeast {c | c ∈ cps ∧ t + 1 / 20 < c} (jumpTarget cps t)) ∧
      ((∀ c ∈ cps, c ≤ t + 1 / 20) → cps ≠ [] →
        IsLeast {c | c ∈ cps} (jumpTarget cps t)) ∧
      (cps = [] → jumpTarget cps t = 0)) ∧
    jumpTarget [10, 20, 30] 25 = 30 ∧ jumpTarget [10, 20, 30] 35 = 10 := by
  refine ⟨?_, by norm_num [jumpTarget, List.find?], by norm_num [jumpTarget, List.find?]⟩
  intro cps t hs
  refine ⟨?_, ?_, ?_⟩
  · rintro ⟨c, hcmem, hclt⟩
    match cps, hcmem with
    | c0 :: rest, hcmem =>
      cases hfind : (c0 :: rest).find? fun x => decide (t + 1 / 20 < x) with
      | none =>
        exact absurd hclt (by simpa using List.find?_eq_none.mp hfind c hcmem)
      | some b =>
        obtain ⟨hmem, hpb, hleast⟩ := find?_sorted_least hs hfind
        have hjt : jumpTarget (c0 :: rest) t = b := by
          simp only [jumpTarget]
          rw [hfind]
          rfl
        rw [hjt]
        exact ⟨⟨hmem, hpb⟩, fun x hx => hleast x hx.1 hx.2⟩
  · intro hall hne
    match cps, hne with
    | c0 :: rest, _ =>
      have hfind : ((c0 :: rest).find? fun x => decide (t + 1 / 20 < x)) = none :=
        List.find?_eq_none.mpr fun a ha => by simpa using not_lt.mpr (hall a ha)
      have hjt : jumpTarget (c0 :: rest) t = c0 := by
        simp only [jumpTarget]
        rw [hfind]
        rfl
      rw [hjt]
      rw [List.sorted_cons] at hs
      refine ⟨List.mem_cons_self _ _, fun x hx => ?_⟩
      rcases List.mem_cons.mp hx with rfl | hx
      · exact le_refl _
      · exact hs.1 x hx
  · rintro rfl
    rfl

/-- Instance of `jumpToNextCue_target_spec` at `cps = [10, 20, 30]`, `t = 25`. -/
theorem jumpToNextCue_target_spec_witness :
    ([10, 20, 30] : List ℚ).Sorted (· ≤ ·) ∧
    (∃ c ∈ ([10, 20, 30] : List ℚ), (25 : ℚ) + 1 / 20 < c) ∧
    IsLeast {c | c ∈ ([10, 20, 30] : List ℚ) ∧ (25 : ℚ) + 1 / 20 < c}
      (jumpTarget [10, 20, 30] 25) := by
  have hs : ([10, 20, 30] : List ℚ).Sorted (· ≤ ·) := by
    norm_num [List.sorted_cons]
  have hex : ∃ c ∈ ([10, 20, 30] : List ℚ), (25 : ℚ) + 1 / 20 < c :=
    ⟨30, by norm_num⟩
  exact ⟨hs, hex, (jumpToNextCue_target_spec.1 [10, 20, 30] 25 hs).1 hex⟩

/-- Claim C9: `addCuePoint` is a no-op when a stored entry is within 0.1s of
the current time and otherwise inserts the current time keeping the list
sorted; a second add within 0.1s of a successful one changes nothing (the two
calls store exactly one mark); and every cue list reachable through
`addCuePoint`/`removeCuePoint` is sorted with no two entries within 0.1s. -/
theorem addCuePoint_tolerant_sorted :
    (∀ (cps : List ℚ) (t : ℚ),
      (nearCue cps t = true → addCuePoint cps t = cps) ∧
      (nearCue cps t = false →
        (addCuePoint cps t).Perm (t :: cps) ∧ (addCuePoint cps t).Sorted (· ≤ ·))) ∧
    (∀ (cps : List ℚ) (t t' : ℚ), nearCue cps t = false → |t' - t| < 1 / 10 →
      addCuePoint (addCuePoint cps t) t' = addCuePoint cps t) ∧
    ∀ cps : List ℚ, CueReach cps →
      cps.Sorted (· ≤ ·) ∧ cps.Pairwise fun a b => a + 1 / 10 ≤ b := by
  refine ⟨?_, ?_, ?_⟩
  · intro cps t
    exact ⟨addCue_of_near, fun h => ⟨addCue_perm h, addCue_sorted h⟩⟩
  · intro cps t t' hfar hclose
    have ht : t ∈ addCuePoint cps t :=
      (addCue_perm hfar).mem_iff.mpr (List.mem_cons_self _ _)
    have hnear : nearCue (addCuePoint cps t) t' = true := by
      simp only [nearCue, List.any_eq_true]
      exact ⟨t, ht, by rw [decide_eq_true_eq, abs_sub_comm]; exact hclose⟩
    exact addCue_of_near hnear
  · intro cps h
    have hgap := cueReach_gap h
    exact ⟨hgap.imp fun hab => by linarith, hgap⟩

/-- Instance of `addCuePoint_tolerant_sorted`: adding 5 then 5.05 to the empty
cue list stores exactly the single mark 5. -/
theorem addCuePoint_tolerant_sorted_witness :
    nearCue [] 5 = false ∧ |(505 : ℚ) / 100 - 5| < 1 / 10 ∧
    addCuePoint (addCuePoint [] 5) (505 / 100) = addCuePoint [] 5 := by
  refine ⟨rfl, by rw [abs_lt]; norm_num, ?_⟩
  exact addCuePoint_tolerant_sorted.2.1 [] 5 (505 / 100) rfl (by rw [abs_lt]; norm_num)


/-! ## BPM estimator lemmas -/

/-- Complete characterization of the `maxCorrelation`/`bestLag` loop: either
no lag beats the running maximum and the accumulator survives, or the result
is the first lag attaining the maximum (every earlier lag strictly below it,
every later lag at most it). -/
lemma bestLoop_cases (f : ℕ → ℚ) :
    ∀ (ls : List ℕ) (mc : ℚ) (bl : ℕ),
      ((∀ l ∈ ls, f l ≤ mc) ∧ bestLoop f ls mc bl = (mc, bl)) ∨
      (∃ p b s, ls = p ++ b :: s ∧ mc < f b ∧ (∀ m ∈ p, f m < f b) ∧
        (∀ m ∈ s, f m ≤ f b) ∧ bestLoop f ls mc bl = (f b, b)) := by
  intro ls
  induction ls with
  | nil => intro mc bl; exact Or.inl ⟨by simp, rfl⟩
  | cons l ls ih =>
    intro mc bl
    by_cases h : mc < f l
    · have hstep : bestLoop f (l :: ls) mc bl = bestLoop f ls (f l) l := by
        simp [bestLoop, h]
      rcases ih (f l) l with ⟨hall, heq⟩ | ⟨p, b, s2, hls, hmc, hp, hs2, heq⟩
      · exact Or.inr ⟨[], l, ls, by simp, h, by simp, hall, by rw [hstep, heq]⟩
      · refine Or.inr ⟨l :: p, b, s2, by simp [hls], h.trans hmc, ?_, hs2, by rw [hstep, heq]⟩
        intro m hm
        rcases List.mem_cons.mp hm with rfl | hm
        · exact hmc
        · exact hp m hm
    · have hstep : bestLoop f (l :: ls) mc bl = bestLoop f ls mc bl := by
        simp [bestLoop, h]
      rcases ih mc bl with ⟨hall, heq⟩ | ⟨p, b, s2, hls, hmc, hp, hs2, heq⟩
      · refine Or.inl ⟨?_, by rw [hstep, heq]⟩
        intro m hm
        rcases List.mem_cons.mp hm with rfl | hm
        · exact not_lt.mp h
        · exact hall m hm
      · refine Or.inr ⟨l :: p, b, s2, by simp [hls], hmc, ?_, hs2, by rw [hstep, heq]⟩
        intro m hm
        rcases List.mem_cons.mp hm with rfl | hm
        · exact lt_of_le_of_lt (not_lt.mp h) hmc
        · exact hp m hm

lemma find?_skip {q : ℕ → Bool} :
    ∀ (p rest : List ℕ), (∀ m ∈ p, q m = false) → (p ++ rest).find? q = rest.find? q := by
  intro p
  induction p with
  | nil => intro rest _; rfl
  | cons a p ih =>
    intro rest hfail
    rw [List.cons_append, List.find?_cons_of_neg _ (by simp [hfail a (List.mem_cons_self _ _)])]
    exact ih rest fun m hm => hfail m (List.mem_cons_of_mem _ hm)

/-- On a list decomposed around its first maximum, the declarative
"first dominating element" search returns exactly that element. -/
lemma find?_first_max (f : ℕ → ℚ) (p s : List ℕ) (b : ℕ)
    (hp : ∀ m ∈ p, f m < f b) (hs : ∀ m ∈ s, f m ≤ f b) :
    ((p ++ b :: s).find? fun l => (p ++ b :: s).all fun m => decide (f m ≤ f l)) = some b := by
  have hb : b ∈ p ++ b :: s := List.mem_append.mpr (Or.inr (List.mem_cons_self _ _))
  have hfail : ∀ m ∈ p, ((p ++ b :: s).all fun m2 => decide (f m2 ≤ f m)) = false := by
    intro m hm
    apply Bool.eq_false_iff.mpr
    intro hcontra
    rw [List.all_eq_true] at hcontra
    have hb2 := hcontra b hb
    rw [decide_eq_true_eq] at hb2
    exact absurd hb2 (not_le.mpr (hp m hm))
  rw [find?_skip p (b :: s) hfail]
  apply List.find?_cons_of_pos
  rw [List.all_eq_true]
  intro m hm
  rw [decide_eq_true_eq]
  rcases List.mem_append.mp hm with hm | hm
  · exact (hp m hm).le
  · rcases List.mem_cons.mp hm with rfl | hm
    · exact le_refl _
    · exact hs m hm

lemma one_le_of_mem_lagRange {r : ℚ} (hmin : 1 ≤ ⌊r * ((60 : ℚ) / 160)⌋) :
    ∀ l ∈ lagRange r, 1 ≤ l := by
  intro l hl
  unfold lagRange at hl
  obtain ⟨k, _, rfl⟩ := List.mem_map.mp hl
  omega

/-- Claim C5: the estimator's autocorrelation core equals the reference
definition — short tracks yield 0; otherwise the best lag is the first lag in
`[floor(r*60/160), floor(r*60/70)]` maximizing the correlation sum (ties
broken by the strict-greater update), with result 0 when no lag has positive
correlation and otherwise the rounded octave-fold of `60*r/bestLag` rounded
to one decimal.  The hypothesis `1 ≤ minLag` holds for every real effective
rate (the source guarantees `effectiveRate ≥ 6000`). -/
theorem analyzeBPM_matches_reference (dur : ℚ) (env : List ℚ) (r : ℚ)
    (hmin : 1 ≤ ⌊r * ((60 : ℚ) / 160)⌋) :
    analyzeBPM_model dur env r = bpmReferenceTrack dur env r := by
  unfold analyzeBPM_model bpmReferenceTrack
  split_ifs with hdur
  · rfl
  rcases bestLoop_cases (corrAt env) (lagRange r) 0 0 with
    ⟨hall, heq⟩ | ⟨p, b, s2, hls, hpos, hp, hs2, heq⟩
  · have h2 : (bestLoop (corrAt env) (lagRange r) 0 0).2 = 0 := by rw [heq]
    unfold analyzeCore
    rw [if_pos h2]
    unfold bpmReference
    cases hfind : refBestLag env r with
    | none => rfl
    | some b =>
      have hmem : b ∈ lagRange r := List.mem_of_find?_eq_some hfind
      show (0 : ℤ) = if corrAt env b ≤ 0 then 0 else normalizeBpm (round1 (60 * r / (b : ℚ)))
      rw [if_pos (hall b hmem)]
  · have h2 : (bestLoop (corrAt env) (lagRange r) 0 0).2 = b := by rw [heq]
    have hb1 : 1 ≤ b :=
      one_le_of_mem_lagRange hmin b
        (by rw [hls]; exact List.mem_append.mpr (Or.inr (List.mem_cons_self _ _)))
    unfold analyzeCore
    rw [h2, if_neg (by omega)]
    have href : refBestLag env r = some b := by
      unfold refBestLag
      rw [hls]
      exact find?_first_max (corrAt env) p s2 b hp hs2
    unfold bpmReference
    rw [href]
    show normalizeBpm (round1 (60 * r / (b : ℚ))) =
      if corrAt env b ≤ 0 then 0 else normalizeBpm (round1 (60 * r / (b : ℚ)))
    rw [if_neg (not_le.mpr hpos)]

/-- Instance of `analyzeBPM_matches_reference` at effective rate 8 and an
empty envelope. -/
theorem analyzeBPM_matches_reference_witness :
    (1 : ℤ) ≤ ⌊(8 : ℚ) * ((60 : ℚ) / 160)⌋ ∧
    analyzeBPM_model 20 [] 8 = bpmReferenceTrack 20 [] 8 := by
  have h3 : ((3 : ℤ) : ℚ) = (8 : ℚ) * ((60 : ℚ) / 160) := by norm_num
  have hmin : (1 : ℤ) ≤ ⌊(8 : ℚ) * ((60 : ℚ) / 160)⌋ := by
    rw [← h3, Int.floor_intCast]
    norm_num
  exact ⟨hmin, analyzeBPM_matches_reference 20 [] 8 hmin⟩


/-! ## Deck invariant preservation -/

lemma inv_advance (s : Deck) (d : ℚ) (hd : 0 ≤ d) (h : DeckInv s) :
    DeckInv (advanceOp s d) := by
  refine ⟨h.loaded, h.durPos, h.srPos, h.ratePos, h.ct0, h.ctD, h.pa0, h.paD, ?_, h.scr⟩
  show s.startTime ≤ s.now + d
  linarith [h.clock]

lemma inv_pause (s : Deck) (h : DeckInv s) : DeckInv (pauseOp s) := by
  unfold pauseOp
  split_ifs with hp
  · refine ⟨h.loaded, h.durPos, h.srPos, h.ratePos, ?_, ?_, ?_, ?_, h.clock, h.scr⟩
    · show (0 : ℚ) ≤ min (s.pausedAt + (s.now - s.startTime) * s.rate) s.dur
      have he : 0 ≤ (s.now - s.startTime) * s.rate :=
        mul_nonneg (by linarith [h.clock]) h.ratePos.le
      exact le_min (by linarith [h.pa0]) h.durPos.le
    · exact min_le_right _ _
    · show (0 : ℚ) ≤ min (s.pausedAt + (s.now - s.startTime) * s.rate) s.dur
      have he : 0 ≤ (s.now - s.startTime) * s.rate :=
        mul_nonneg (by linarith [h.clock]) h.ratePos.le
      exact le_min (by linarith [h.pa0]) h.durPos.le
    · exact min_le_right _ _
  · exact h

lemma inv_play (s : Deck) (h : DeckInv s) : DeckInv (playOp s) := by
  unfold playOp
  split_ifs with hcond hend
  · exact ⟨h.loaded, h.durPos, h.srPos, h.ratePos, le_refl 0, h.durPos.le, le_refl 0,
      h.durPos.le, le_refl s.now, h.scr⟩
  · exact ⟨h.loaded, h.durPos, h.srPos, h.ratePos, h.pa0, h.paD, h.pa0, h.paD,
      le_refl s.now, h.scr⟩
  · exact h

lemma inv_tick (s : Deck) (h : DeckInv s) : DeckInv (tickOp s) := by
  unfold tickOp
  split_ifs with h1 h2 h3 h4
  · obtain ⟨hc0, hcD, ht0, htD⟩ := h.scr h1
    refine ⟨h.loaded, h.durPos, h.srPos, h.ratePos, le_max_left _ _,
      max_le h.durPos.le (min_le_right _ _), div_nonneg hc0 h.srPos.le,
      (div_le_iff₀ h.srPos).mpr hcD, h.clock, ?_⟩
    intro _
    exact ⟨hc0, hcD, ht0, htD⟩
  · exact absurd h.loaded h2
  · have h' := inv_pause s h
    exact ⟨h'.loaded, h'.durPos, h'.srPos, h'.ratePos, le_refl 0, h'.durPos.le, le_refl 0,
      h'.durPos.le, h'.clock, h'.scr⟩
  · have he : 0 ≤ (s.now - s.startTime) * s.rate :=
      mul_nonneg (by linarith [h.clock]) h.ratePos.le
    have hcalc : s.pausedAt + (s.now - s.startTime) * s.rate < s.dur := by
      by_contra hge
      exact h4 ⟨not_lt.mp hge, h.durPos⟩
    refine ⟨h.loaded, h.durPos, h.srPos, h.ratePos, ?_, hcalc.le, h.pa0, h.paD,
      h.clock, h.scr⟩
    show (0 : ℚ) ≤ s.pausedAt + (s.now - s.startTime) * s.rate
    linarith [h.pa0]
  · exact h

lemma inv_seek (s : Deck) (t : ℚ) (h : DeckInv s) : DeckInv (seekOp s t) := by
  have hclamp0 : (0 : ℚ) ≤ max 0 (min t s.dur) := le_max_left _ _
  have hclampD : max 0 (min t s.dur) ≤ s.dur := max_le h.durPos.le (min_le_right _ _)
  unfold seekOp
  split_ifs with h1 h2 h3
  · refine ⟨h.loaded, h.durPos, h.srPos, h.ratePos, h.ct0, h.ctD, h.pa0, h.paD,
      h.clock, ?_⟩
    intro hs2
    obtain ⟨hc0, hcD, _, _⟩ := h.scr hs2
    exact ⟨hc0, hcD, mul_nonneg hclamp0 h.srPos.le,
      mul_le_mul_of_nonneg_right hclampD h.srPos.le⟩
  · exact ⟨h.loaded, h.durPos, h.srPos, h.ratePos, hclamp0, hclampD, hclamp0, hclampD,
      le_refl s.now, h.scr⟩
  · exact ⟨h.loaded, h.durPos, h.srPos, h.ratePos, hclamp0, hclampD, hclamp0, hclampD,
      h.clock, h.scr⟩
  · exact h

lemma inv_startScratch (s : Deck) (h : DeckInv s) : DeckInv (startScratchOp s) := by
  unfold startScratchOp
  split_ifs with h1
  · refine ⟨h.loaded, h.durPos, h.srPos, h.ratePos, h.ct0, h.ctD, h.pa0, h.paD,
      h.clock, ?_⟩
    intro _
    have ha : 0 ≤ s.pausedAt * s.srate := mul_nonneg h.pa0 h.srPos.le
    have hb : s.pausedAt * s.srate ≤ s.dur * s.srate :=
      mul_le_mul_of_nonneg_right h.paD h.srPos.le
    exact ⟨ha, hb, ha, hb⟩
  · exact h

lemma inv_frame (s : Deck) (h : DeckInv s) : DeckInv (scratchFrameOp s) := by
  unfold scratchFrameOp
  split_ifs with h1
  · obtain ⟨hc0, hcD, ht0, htD⟩ := h.scr h1
    refine ⟨h.loaded, h.durPos, h.srPos, h.ratePos, h.ct0, h.ctD, h.pa0, h.paD,
      h.clock, ?_⟩
    intro _
    have hlb := physStep_lb s.curSample s.targetSample
    have hub := physStep_ub s.curSample s.targetSample
    have hmin : (0 : ℚ) ≤ min s.curSample s.targetSample := le_min hc0 ht0
    have hmax : max s.curSample s.targetSample ≤ s.dur * s.srate := max_le hcD htD
    exact ⟨by linarith, by linarith, ht0, htD⟩
  · exact h

lemma inv_syncStop (s : Deck) (hscr : s.isScratching = true) (h : DeckInv s) :
    DeckInv (syncStop s) := by
  obtain ⟨hc0, hcD, _, _⟩ := h.scr hscr
  unfold syncStop
  split_ifs with h1
  · refine ⟨h.loaded, h.durPos, h.srPos, h.ratePos, div_nonneg hc0 h.srPos.le,
      (div_le_iff₀ h.srPos).mpr hcD, div_nonneg hc0 h.srPos.le,
      (div_le_iff₀ h.srPos).mpr hcD, h.clock, ?_⟩
    intro hfalse
    simp at hfalse
  · exact absurd h.loaded h1

lemma inv_stopScratch (s : Deck) (h : DeckInv s) : DeckInv (stopScratchOp s) := by
  unfold stopScratchOp
  split_ifs with h1 h2
  · exact inv_play _ (inv_syncStop s h1 h)
  · exact inv_syncStop s h1 h
  · exact h

lemma inv_addCue (s : Deck) (h : DeckInv s) : DeckInv (addCueOp s) :=
  ⟨h.loaded, h.durPos, h.srPos, h.ratePos, h.ct0, h.ctD, h.pa0, h.paD, h.clock, h.scr⟩

lemma inv_removeCue (s : Deck) (h : DeckInv s) : DeckInv (removeCueOp s) :=
  ⟨h.loaded, h.durPos, h.srPos, h.ratePos, h.ct0, h.ctD, h.pa0, h.paD, h.clock, h.scr⟩

lemma inv_jump (s : Deck) (h : DeckInv s) : DeckInv (jumpOp s) := by
  unfold jumpOp
  split_ifs with h1
  · exact inv_seek _ _ (inv_stopScratch s h)
  · exact inv_seek _ _ h

lemma inv_setRate (s : Deck) (v : ℚ) (hv : 0 < v) (h : DeckInv s) :
    DeckInv (setRateOp s v) :=
  ⟨h.loaded, h.durPos, h.srPos, hv, h.ct0, h.ctD, h.pa0, h.paD, h.clock, h.scr⟩

lemma inv_loadOk (s : Deck) (d sr : ℚ) (name : String) (hd : 0 < d) (hsr : 0 < sr)
    (h : DeckInv s) : DeckInv (loadSuccessOp s d sr name) := by
  refine ⟨rfl, hd, hsr, one_pos, le_refl 0, hd.le, le_refl 0, hd.le, h.clock, ?_⟩
  intro hfalse
  simp [loadSuccessOp] at hfalse

lemma inv_loadFail (s : Deck) (name : String) (h : DeckInv s) :
    DeckInv (loadFailOp s name) := by
  refine ⟨h.loaded, h.durPos, h.srPos, h.ratePos, h.ct0, h.ctD, h.pa0, h.paD,
    h.clock, ?_⟩
  intro hfalse
  simp [loadFailOp] at hfalse

lemma step_preserves {s s' : Deck} (hstep : Step s s') (h : DeckInv s) : DeckInv s' := by
  cases hstep with
  | advance d hd => exact inv_advance _ d hd h
  | tick => exact inv_tick _ h
  | play => exact inv_play _ h
  | pause => exact inv_pause _ h
  | seek t => exact inv_seek _ t h
  | startScr => exact inv_startScratch _ h
  | frame => exact inv_frame _ h
  | stopScr => exact inv_stopScratch _ h
  | addCue => exact inv_addCue _ h
  | removeCue => exact inv_removeCue _ h
  | jump => exact inv_jump _ h
  | setRate v hv => exact inv_setRate _ v hv h
  | loadOk d sr name hd hsr => exact inv_loadOk _ d sr name hd hsr h
  | loadErr name => exact inv_loadFail _ name h

lemma inv_init (d sr n0 : ℚ) (hd : 0 < d) (hsr : 0 < sr) (hn : 0 ≤ n0) :
    DeckInv (initDeck d sr n0) := by
  refine ⟨rfl, hd, hsr, one_pos, le_refl 0, hd.le, le_refl 0, hd.le, hn, ?_⟩
  intro hfalse
  simp [initDeck] at hfalse

/-- Claim C4: in every state reachable from a freshly loaded deck by any
sequence of public operations (with clock advances, render frames and UI
ticks interleaved arbitrarily, and rate changes restricted to the positive
rates of the spec's data model), the derived `currentTime` lies in
`[0, duration]`. -/
theorem currentTime_in_range (d sr n0 : ℚ) (hd : 0 < d) (hsr : 0 < sr) (hn : 0 ≤ n0)
    (s : Deck) (h : Reachable (initDeck d sr n0) s) :
    0 ≤ s.currentTime ∧ s.currentTime ≤ s.dur := by
  have hinv : DeckInv s := by
    induction h with
    | refl => exact inv_init d sr n0 hd hsr hn
    | tail _ h2 ih => exact step_preserves h2 ih
  exact ⟨hinv.ct0, hinv.ctD⟩

/-- Instance of `currentTime_in_range` at the freshly loaded deck itself. -/
theorem currentTime_in_range_witness :
    (0 : ℚ) < 1 ∧ (0 : ℚ) ≤ 0 ∧ Reachable (initDeck 1 1 0) (initDeck 1 1 0) ∧
    0 ≤ (initDeck 1 1 0).currentTime ∧
    (initDeck 1 1 0).currentTime ≤ (initDeck 1 1 0).dur :=
  ⟨one_pos, le_refl 0, Relation.ReflTransGen.refl,
    currentTime_in_range 1 1 0 one_pos one_pos (le_refl 0) _ Relation.ReflTransGen.refl⟩

/-- Claim C7: on a paused, non-scratching deck with a loaded buffer, `seek t`
stores `clamp(t, 0, duration)` in both `currentTime` and `pausedAt`, and the
next position query (UI tick) still reads that clamped value. -/
theorem seek_paused_clamps (s : Deck) (t : ℚ) (hload : s.loaded = true)
    (hplay : s.isPlaying = false) (hscr : s.isScratching = false) :
    (seekOp s t).currentTime = max 0 (min t s.dur) ∧
    (seekOp s t).pausedAt = max 0 (min t s.dur) ∧
    (tickOp (seekOp s t)).currentTime = max 0 (min t s.dur) := by
  have hseek : seekOp s t =
      { s with currentTime := max 0 (min t s.dur), pausedAt := max 0 (min t s.dur) } := by
    unfold seekOp
    rw [if_pos hload, if_neg (by simp [hscr]), if_neg (by simp [hplay])]
  refine ⟨by rw [hseek], by rw [hseek], ?_⟩
  rw [hseek]
  unfold tickOp
  rw [if_neg (by simp [hscr]), if_neg (by simp [hplay])]

/-- Instance of `seek_paused_clamps`: seeking to 150 on a paused 100s deck
lands on 100. -/
theorem seek_paused_clamps_witness :
    (initDeck 100 1 0).loaded = true ∧ (initDeck 100 1 0).isPlaying = false ∧
    (initDeck 100 1 0).isScratching = false ∧
    (seekOp (initDeck 100 1 0) 150).currentTime =
      max 0 (min 150 (initDeck 100 1 0).dur) :=
  ⟨rfl, rfl, rfl, (seek_paused_clamps (initDeck 100 1 0) 150 rfl rfl rfl).1⟩


/-! ## Rate change, failed load, stale analysis -/

/-- Claim C1 fails on the code: a deck 10 seconds into playback (reachable by
`play` then a 10s clock advance) reports position 10 before
`setPlaybackRate(2)` and position 20 immediately after it — the position
query multiplies the **whole** elapsed interval by the current rate
(line 242) and `setPlaybackRate` commits neither `pausedAt` nor `startTime`,
so the reported position jumps instead of staying continuous. -/
theorem setRate_position_jump :
    Reachable (initDeck 100 44100 0) c1Deck ∧
    (tickOp c1Deck).currentTime = 10 ∧
    (tickOp (setRateOp c1Deck 2)).currentTime = 20 ∧ (10 : ℚ) ≠ 20 := by
  refine ⟨?_, ?_, ?_, by norm_num⟩
  · have h1 : Step (initDeck 100 44100 0) (playOp (initDeck 100 44100 0)) := Step.play _
    have h2 : Step (playOp (initDeck 100 44100 0))
        (advanceOp (playOp (initDeck 100 44100 0)) 10) :=
      Step.advance _ 10 (by norm_num)
    have e : advanceOp (playOp (initDeck 100 44100 0)) 10 = c1Deck := by
      unfold advanceOp playOp initDeck c1Deck
      norm_num
    exact Relation.ReflTransGen.tail (Relation.ReflTransGen.single h1) (e ▸ h2)
  · unfold tickOp c1Deck
    norm_num
  · unfold tickOp setRateOp c1Deck
    norm_num

/-- Claim C2 counterexample: `loadFile` writes the new file name and stops
playback **before** decoding (lines 270-276), so a failed decode does not
leave `fileName` and `isPlaying` unchanged. -/
theorem loadFail_not_unchanged :
    ¬((loadFailOp c2Deck "track-b").fileName = c2Deck.fileName ∧
      (loadFailOp c2Deck "track-b").isPlaying = c2Deck.isPlaying) := by
  intro hcontra
  have h1 : (some "track-b" : Option String) = some "track-a" := hcontra.1
  simp at h1

/-- Claim C2 amended: on a failed decode the deck's buffer metadata,
duration, cue points, playback rate, bpm, `pausedAt` and `currentTime` are
unchanged, but `fileName` is overwritten with the new file's name and
playback/scratching stop (`isPlaying = false`). -/
theorem loadFail_partial_mutation (s : Deck) (name : String) :
    (loadFailOp s name).loaded = s.loaded ∧
    (loadFailOp s name).dur = s.dur ∧
    (loadFailOp s name).srate = s.srate ∧
    (loadFailOp s name).cuePoints = s.cuePoints ∧
    (loadFailOp s name).rate = s.rate ∧
    (loadFailOp s name).bpm = s.bpm ∧
    (loadFailOp s name).pausedAt = s.pausedAt ∧
    (loadFailOp s name).currentTime = s.currentTime ∧
    (loadFailOp s name).fileName = some name ∧
    (loadFailOp s name).isPlaying = false :=
  ⟨rfl, rfl, rfl, rfl, rfl, rfl, rfl, rfl, rfl, rfl⟩

/-- Claim C3 fails on the code: the completion handler started at lines
291-293 applies `setBpm` with no staleness check, so after load 1, load 2,
and the late completion of load 1's analysis, the deck's bpm holds the result
of analyzing the superseded buffer (tag 1) while buffer 2 is loaded. -/
theorem stale_bpm_applied :
    BpmReachable ⟨2, some 1, [2]⟩ ∧
    (⟨2, some 1, [2]⟩ : BpmSys).bpmTag = some 1 ∧
    (⟨2, some 1, [2]⟩ : BpmSys).gen = 2 ∧ (1 : ℕ) ≠ 2 := by
  refine ⟨?_, rfl, rfl, by omega⟩
  have h1 : BStep initBpm (loadStep initBpm) := BStep.load _
  have h2 : BStep (loadStep initBpm) (loadStep (loadStep initBpm)) := BStep.load _
  have h3 : BStep (loadStep (loadStep initBpm))
      (completeStep (loadStep (loadStep initBpm)) 1) :=
    BStep.complete _ 1 (by simp [loadStep, initBpm])
  have e : completeStep (loadStep (loadStep initBpm)) 1 = ⟨2, some 1, [2]⟩ := rfl
  exact Relation.ReflTransGen.tail
    (Relation.ReflTransGen.tail (Relation.ReflTransGen.single h1) h2) (e ▸ h3)

end PortaDJ
